import Mathlib

/-!
Verification of `torch_geometric/data/materialized_graph.py`.

The Python module defines `EdgeLayout`, `EdgeAttr` and the abstract,
mapping-like container `MaterializedGraph`.  The concrete backing store
(`_put_edge_index` / `_get_edge_index` are abstract methods returning
`None`), the layout-conversion helpers, the `CastMixin.cast` helper and
the external sampler are not part of the file; where the claims need
them they are modelled from the spec, and each such definition says so
in its doc comment.  Everything else is translated directly from the
source.
-/

namespace MaterializedGraphSpec

/-- The `EdgeLayout` enum of the source: COO, CSC, CSR, LIL. -/
inductive EdgeLayout where
  | COO
  | CSC
  | CSR
  | LIL
deriving DecidableEq, Repr

/-- Modelled from the spec: `EdgeTensorType` is "a variant over
representations: a single 2×N integer array (COO), or a pair of integer
arrays (index-pointer, indices) for CSC/CSR, or an externally-defined
sparse-matrix structure" (the list-of-lists form used by LIL).  The
Python alias lives in `torch_geometric/typing.py`, outside `src/`. -/
inductive EdgeTensorType where
  | coo (row col : List Nat)
  | compressed (indptr indices : List Nat)
  | lil (neighbors : List (List Nat))
deriving DecidableEq, Repr

/-- The `EdgeAttr` dataclass of the source: `layout : Optional[EdgeLayout]`
and `edge_type : Optional[Any]`, both defaulting to `None`.  Edge-type
identifiers are modelled as strings. -/
structure EdgeAttr where
  layout : Option EdgeLayout := none
  edge_type : Option String := none
deriving DecidableEq, Repr

/-- An argument bundle accepted by `CastMixin.cast(*args, **kwargs)`:
either a single already-constructed `EdgeAttr`, or a (possibly partial)
collection of field values. -/
inductive AttrArgs where
  | attr (a : EdgeAttr)
  | fields (layout : Option EdgeLayout) (edge_type : Option String)
deriving DecidableEq, Repr

/-- Modelled from the spec: `CastMixin.cast` (defined in
`torch_geometric/utils/mixin.py`, which is not under `src/`) must
"deterministically construct a full EdgeKey, filling unspecified fields
with null/None", be pure and total.  An `EdgeAttr` passed through is
returned as is; field bundles become an `EdgeAttr`, with unspecified
fields already `none` in the bundle. -/
def EdgeAttr.cast : AttrArgs → EdgeAttr
  | .attr a => a
  | .fields l t => { layout := l, edge_type := t }

/-- The layout field a bundle specifies (`none` when unspecified). -/
def argsLayout : AttrArgs → Option EdgeLayout
  | .attr a => a.layout
  | .fields l _ => l

/-- The edge-type field a bundle specifies (`none` when unspecified). -/
def argsEdgeType : AttrArgs → Option String
  | .attr a => a.edge_type
  | .fields _ t => t

/-- Errors raised by the container: the `AttributeError` raised by
`put_edge_index` when no layout is given (named `MissingLayoutError` by
the spec), and the `NotImplementedError` raised by `__delitem__`,
`__iter__` and `__len__`. -/
inductive StoreError where
  | missingLayout (msg : String)
  | notImplemented
deriving DecidableEq, Repr

/-- The message of the `AttributeError` raised by `put_edge_index`. -/
def missingLayoutMsg : String :=
  "An edge layout is required to store an edge index, but one was not provided."

/-- Modelled from the spec: "EdgeStore: owns a mapping from EdgeKey to
EdgeTensorType".  The Python class is abstract and owns no storage; the
mapping is modelled as an association list keyed by the full `EdgeAttr`. -/
structure MaterializedGraph where
  store : List (EdgeAttr × EdgeTensorType)
deriving DecidableEq, Repr

/-- A graph with an empty backing store. -/
def emptyGraph : MaterializedGraph := ⟨[]⟩

/-- First value stored under a key in the association list. -/
def lookupStore (s : List (EdgeAttr × EdgeTensorType)) (k : EdgeAttr) :
    Option EdgeTensorType :=
  match s with
  | [] => none
  | (k', v) :: rest => if k' = k then some v else lookupStore rest k

/-- Expansion of a compressed index pointer: entry `i` of the pointer
list `[p 0, p 1, ...]` contributes `p (i+1) - p i` copies of `i`. -/
def expandPtrAux : Nat → List Nat → List Nat
  | _, [] => []
  | _, [_] => []
  | i, a :: b :: rest => List.replicate (b - a) i ++ expandPtrAux (i + 1) (b :: rest)

/-- Row indices encoded by a CSR/CSC index pointer. -/
def expandPtr (p : List Nat) : List Nat := expandPtrAux 0 p

/-- Row indices of a list-of-lists representation whose first list is
row `i`: list `l` at row `j` contributes `l.length` copies of `j`. -/
def rowsOfLil : Nat → List (List Nat) → List Nat
  | _, [] => []
  | i, l :: ls => List.replicate l.length i ++ rowsOfLil (i + 1) ls

/-- Modelled from the spec: normalization of a stored representation,
tagged with its physical layout, to COO.  "Result: the EdgeTensorType
normalized to COO layout regardless of stored physical layout." -/
def layoutToCOO : EdgeLayout → EdgeTensorType → EdgeTensorType
  | .COO, t => t
  | .CSR, .compressed indptr indices => .coo (expandPtr indptr) indices
  | .CSC, .compressed indptr indices => .coo indices (expandPtr indptr)
  | .LIL, .lil ls => .coo (rowsOfLil 0 ls) ls.flatten
  | _, t => t

/-- Splits off the leading run of entries whose grouped index equals `i`:
returns the matching values, the remaining indices and the remaining
values. -/
def splitLeading (i : Nat) : List Nat → List Nat → List Nat × List Nat × List Nat
  | r :: rs, c :: cs =>
      if r = i then
        let q := splitLeading i rs cs
        (c :: q.1, q.2.1, q.2.2)
      else ([], r :: rs, c :: cs)
  | rs, cs => ([], rs, cs)

/-- Groups a sorted COO index/value pair into one value list per group
index `i, i+1, ..., i+n-1`. -/
def cooToLilAux : Nat → Nat → List Nat → List Nat → List (List Nat)
  | 0, _, _, _ => []
  | n + 1, i, rows, cols =>
      let q := splitLeading i rows cols
      q.1 :: cooToLilAux n (i + 1) q.2.1 q.2.2

/-- The index pointer of a list-of-lists: running sums of the list
lengths, starting from `c`. -/
def scanPtr : Nat → List (List Nat) → List Nat
  | c, [] => [c]
  | c, l :: ls => c :: scanPtr (c + l.length) ls

/-- Modelled from the spec: conversion of a COO edge list into physical
layout `L` over `n` rows (columns for CSC), the inverse direction of
`layoutToCOO` used to state the lossless round-trip property. -/
def cooToLayout (L : EdgeLayout) (n : Nat) : EdgeTensorType → EdgeTensorType
  | .coo rows cols =>
      match L with
      | .COO => .coo rows cols
      | .CSR =>
          let ls := cooToLilAux n 0 rows cols
          .compressed (scanPtr 0 ls) ls.flatten
      | .CSC =>
          let ls := cooToLilAux n 0 cols rows
          .compressed (scanPtr 0 ls) ls.flatten
      | .LIL => .lil (cooToLilAux n 0 rows cols)
  | t => t

/-- Well-formedness of a COO edge list as an input to `cooToLayout L n`:
the two index lists have equal length and the grouped axis (rows for
CSR/LIL, columns for CSC) is sorted with entries below `n`. -/
def wfFor : EdgeLayout → Nat → List Nat → List Nat → Prop
  | .COO, _, _, _ => True
  | .CSC, n, rows, cols =>
      rows.length = cols.length ∧ cols.Sorted (· ≤ ·) ∧ ∀ c ∈ cols, c < n
  | _, n, rows, cols =>
      rows.length = cols.length ∧ rows.Sorted (· ≤ ·) ∧ ∀ r ∈ rows, r < n

/-- Modelled from the spec: the abstract `_put_edge_index` hook, whose
complete implementation stores `edge_index` under the key, "replacing
any prior value for the same key", and returns the success boolean. -/
def _put_edge_index (g : MaterializedGraph) (edge_index : EdgeTensorType)
    (edge_attr : EdgeAttr) : Bool × MaterializedGraph :=
  (true, ⟨(edge_attr, edge_index) :: g.store.filter (fun p => p.1 ≠ edge_attr)⟩)

/-- Modelled from the spec: the abstract `_get_edge_index` hook, whose
complete implementation resolves the key, converts the stored value from
its layout to COO, and returns `none` on a miss. -/
def _get_edge_index (g : MaterializedGraph) (edge_attr : EdgeAttr) :
    Option EdgeTensorType :=
  match lookupStore g.store edge_attr with
  | none => none
  | some v =>
      match edge_attr.layout with
      | some l => some (layoutToCOO l v)
      | none => some v

/-- `MaterializedGraph.put_edge_index`: casts the attribute bundle,
raises the missing-layout `AttributeError` when the cast key has no
layout (in Python `not edge_attr.layout` is true exactly when the layout
is `None`, enum members being truthy), and otherwise delegates to
`_put_edge_index` with a second cast of the same bundle.  The state on
the error path is the unchanged receiver. -/
def put_edge_index (g : MaterializedGraph) (edge_index : EdgeTensorType)
    (args : AttrArgs) : Except StoreError Bool × MaterializedGraph :=
  let edge_attr := EdgeAttr.cast args
  match edge_attr.layout with
  | none => (.error (.missingLayout missingLayoutMsg), g)
  | some _ =>
      let r := _put_edge_index g edge_index (EdgeAttr.cast args)
      (.ok r.1, r.2)

/-- `MaterializedGraph.get_edge_index`: casts the attribute bundle and
delegates to `_get_edge_index`, returning the edge index in COO format
or `none` when there is no such tensor. -/
def get_edge_index (g : MaterializedGraph) (args : AttrArgs) :
    Option EdgeTensorType :=
  _get_edge_index g (EdgeAttr.cast args)

/-- `MaterializedGraph.__setitem__`: casts the key and delegates to
`put_edge_index` with the cast key as the attribute bundle. -/
def setitem (g : MaterializedGraph) (key : AttrArgs)
    (value : EdgeTensorType) : Except StoreError Bool × MaterializedGraph :=
  let k := EdgeAttr.cast key
  put_edge_index g value (.attr k)

/-- `MaterializedGraph.__getitem__`: casts the key and delegates to
`get_edge_index` with the cast key as the attribute bundle. -/
def getitem (g : MaterializedGraph) (key : AttrArgs) :
    Option EdgeTensorType :=
  let k := EdgeAttr.cast key
  get_edge_index g (.attr k)

/-- `MaterializedGraph.__delitem__`: unconditionally raises
`NotImplementedError`; no successor state is ever produced. -/
def delitem (g : MaterializedGraph) (key : AttrArgs) :
    Except StoreError MaterializedGraph :=
  .error .notImplemented

/-- `MaterializedGraph.__iter__`: unconditionally raises
`NotImplementedError`. -/
def iterItems (g : MaterializedGraph) : Except StoreError (List EdgeAttr) :=
  .error .notImplemented

/-- `MaterializedGraph.__len__`: unconditionally raises
`NotImplementedError`. -/
def lenItems (g : MaterializedGraph) : Except StoreError Nat :=
  .error .notImplemented

/-- Modelled from the spec: the store's edge indices, each normalized to
the single canonical layout (COO) before sampling delegates to the
external routine. -/
def normalizeForSampling (g : MaterializedGraph) :
    List (EdgeAttr × EdgeTensorType) :=
  g.store.map fun p =>
    (p.1,
      match p.1.layout with
      | some l => layoutToCOO l p.2
      | none => p.2)

/-- Outcome of a `sample` call: the returned output together with the
number of times the external sampling routine was invoked. -/
structure SampleResult where
  output : List Nat
  samplerCalls : Nat
deriving DecidableEq, Repr

/-- Modelled from the spec: `MaterializedGraph.sample` (a stub returning
`None` in the source) must normalize the edge indices into one canonical
layout, delegate to the external sampling routine and return its output
unchanged, except that an empty input-node sequence yields an empty
result without invoking the external sampler. -/
def sample (g : MaterializedGraph)
    (sampler : List (EdgeAttr × EdgeTensorType) → List Nat → List Nat)
    (input_nodes : List Nat) : SampleResult :=
  if input_nodes.isEmpty then ⟨[], 0⟩
  else ⟨sampler (normalizeForSampling g) input_nodes, 1⟩

/-- Applies a sequence of `put_edge_index` operations to a graph,
threading the state and discarding each call's return value. -/
def runPuts : MaterializedGraph → List (EdgeTensorType × AttrArgs) → MaterializedGraph
  | g, [] => g
  | g, (ei, args) :: rest => runPuts (put_edge_index g ei args).2 rest

theorem lookupStore_cons (p : EdgeAttr × EdgeTensorType)
    (rest : List (EdgeAttr × EdgeTensorType)) (k : EdgeAttr) :
    lookupStore (p :: rest) k =
      if p.1 = k then some p.2 else lookupStore rest k := by
  cases p
  rfl

theorem lookupStore_filter_none (s : List (EdgeAttr × EdgeTensorType))
    (q : EdgeAttr × EdgeTensorType → Bool) (k : EdgeAttr)
    (h : lookupStore s k = none) : lookupStore (s.filter q) k = none := by
  induction s with
  | nil => simp [lookupStore]
  | cons p rest ih =>
      rw [lookupStore_cons] at h
      by_cases hpk : p.1 = k
      · simp [hpk] at h
      · rw [if_neg hpk] at h
        by_cases hq : q p
        · rw [List.filter_cons_of_pos hq, lookupStore_cons, if_neg hpk]
          exact ih h
        · rw [List.filter_cons_of_neg hq]
          exact ih h

theorem lookupStore_filter_ne (s : List (EdgeAttr × EdgeTensorType))
    (k : EdgeAttr) :
    lookupStore (s.filter (fun p => p.1 ≠ k)) k = none := by
  induction s with
  | nil => simp [lookupStore]
  | cons p rest ih =>
      by_cases hpk : p.1 = k
      · rw [List.filter_cons_of_neg (by simp [hpk])]
        exact ih
      · rw [List.filter_cons_of_pos (by simp [hpk]), lookupStore_cons, if_neg hpk]
        exact ih

theorem put_edge_index_some (g : MaterializedGraph) (ei : EdgeTensorType)
    (args : AttrArgs) (L : EdgeLayout)
    (h : (EdgeAttr.cast args).layout = some L) :
    put_edge_index g ei args =
      (.ok true,
        ⟨(EdgeAttr.cast args, ei) ::
          g.store.filter (fun p => p.1 ≠ EdgeAttr.cast args)⟩) := by
  simp only [put_edge_index, _put_edge_index, h]

theorem get_edge_index_lookup (g : MaterializedGraph) (args : AttrArgs) :
    get_edge_index g args =
      match lookupStore g.store (EdgeAttr.cast args) with
      | none => none
      | some v =>
          match (EdgeAttr.cast args).layout with
          | some l => some (layoutToCOO l v)
          | none => some v := rfl

theorem scanPtr_head (ls : List (List Nat)) (c : Nat) :
    ∃ t, scanPtr c ls = c :: t := by
  cases ls <;> exact ⟨_, rfl⟩

theorem expandPtrAux_scanPtr (ls : List (List Nat)) :
    ∀ c i : Nat, expandPtrAux i (scanPtr c ls) = rowsOfLil i ls := by
  induction ls with
  | nil => intro c i; rfl
  | cons l ls ih =>
      intro c i
      obtain ⟨t, ht⟩ := scanPtr_head ls (c + l.length)
      show expandPtrAux i (c :: scanPtr (c + l.length) ls) = _
      rw [ht]
      show List.replicate ((c + l.length) - c) i ++
        expandPtrAux (i + 1) ((c + l.length) :: t) = _
      rw [← ht, Nat.add_sub_cancel_left, ih]
      rfl

theorem splitLeading_spec (i : Nat) :
    ∀ rows cols : List Nat, rows.length = cols.length →
    rows.Sorted (· ≤ ·) → (∀ r ∈ rows, i ≤ r) →
    rows = List.replicate (splitLeading i rows cols).1.length i ++
        (splitLeading i rows cols).2.1 ∧
    cols = (splitLeading i rows cols).1 ++ (splitLeading i rows cols).2.2 ∧
    (splitLeading i rows cols).2.1.length =
        (splitLeading i rows cols).2.2.length ∧
    (splitLeading i rows cols).2.1.Sorted (· ≤ ·) ∧
    (∀ r ∈ (splitLeading i rows cols).2.1, i < r) := by
  intro rows
  induction rows with
  | nil =>
      intro cols hlen _ _
      have : cols = [] := by
        cases cols with
        | nil => rfl
        | cons c cs => simp at hlen
      subst this
      exact ⟨rfl, rfl, rfl, List.sorted_nil, by simp [splitLeading]⟩
  | cons r rs ih =>
      intro cols hlen hsort hge
      cases cols with
      | nil => simp at hlen
      | cons c cs =>
          rw [List.sorted_cons] at hsort
          by_cases hri : r = i
          · subst hri
            have hlen' : rs.length = cs.length := by simpa using hlen
            have hge' : ∀ x ∈ rs, r ≤ x := fun x hx =>
              le_trans (le_refl r) (hsort.1 x hx)
            obtain ⟨e1, e2, e3, e4, e5⟩ := ih cs hlen' hsort.2 hge'
            show (r :: rs) = List.replicate
              (splitLeading r (r :: rs) (c :: cs)).1.length r ++ _ ∧ _
            rw [show splitLeading r (r :: rs) (c :: cs) =
                (c :: (splitLeading r rs cs).1, (splitLeading r rs cs).2.1,
                  (splitLeading r rs cs).2.2) by simp [splitLeading]]
            refine ⟨?_, ?_, e3, e4, e5⟩
            · show r :: rs = List.replicate ((splitLeading r rs cs).1.length + 1)
                r ++ (splitLeading r rs cs).2.1
              rw [List.replicate_succ, List.cons_append]
              exact congrArg (r :: ·) e1
            · exact congrArg (c :: ·) e2
          · rw [show splitLeading i (r :: rs) (c :: cs) =
                ([], r :: rs, c :: cs) by simp [splitLeading, hri]]
            refine ⟨by simp, by simp, hlen, by rw [List.sorted_cons]; exact hsort, ?_⟩
            intro x hx
            have hir : i < r :=
              lt_of_le_of_ne (hge r (List.mem_cons_self r rs)) (Ne.symm hri)
            rcases List.mem_cons.mp hx with hxr | hxs
            · exact hxr ▸ hir
            · exact lt_of_lt_of_le hir (hsort.1 x hxs)

theorem cooToLilAux_roundtrip :
    ∀ n i : Nat, ∀ rows cols : List Nat, rows.length = cols.length →
    rows.Sorted (· ≤ ·) → (∀ r ∈ rows, i ≤ r ∧ r < i + n) →
    rowsOfLil i (cooToLilAux n i rows cols) = rows ∧
    (cooToLilAux n i rows cols).flatten = cols := by
  intro n
  induction n with
  | zero =>
      intro i rows cols hlen _ hb
      cases rows with
      | nil =>
          cases cols with
          | nil => exact ⟨rfl, rfl⟩
          | cons c cs => simp at hlen
      | cons r rs =>
          have := hb r (List.mem_cons_self r rs)
          omega
  | succ n ih =>
      intro i rows cols hlen hsort hb
      obtain ⟨e1, e2, e3, e4, e5⟩ :=
        splitLeading_spec i rows cols hlen hsort (fun r hr => (hb r hr).1)
      have hbound : ∀ r ∈ (splitLeading i rows cols).2.1,
          i + 1 ≤ r ∧ r < (i + 1) + n := by
        intro r hr
        have hmem : r ∈ rows := by
          rw [e1]
          exact List.mem_append_right _ hr
        have := (hb r hmem).2
        have := e5 r hr
        omega
      obtain ⟨f1, f2⟩ := ih (i + 1) (splitLeading i rows cols).2.1
        (splitLeading i rows cols).2.2 e3 e4 hbound
      constructor
      · show List.replicate (splitLeading i rows cols).1.length i ++
          rowsOfLil (i + 1) (cooToLilAux n (i + 1) (splitLeading i rows cols).2.1
            (splitLeading i rows cols).2.2) = rows
        rw [f1]
        exact e1.symm
      · show (splitLeading i rows cols).1 ++
          (cooToLilAux n (i + 1) (splitLeading i rows cols).2.1
            (splitLeading i rows cols).2.2).flatten = cols
        rw [f2]
        exact e2.symm

theorem layout_roundtrip (L : EdgeLayout) (n : Nat) (rows cols : List Nat)
    (h : wfFor L n rows cols) :
    layoutToCOO L (cooToLayout L n (.coo rows cols)) = .coo rows cols := by
  cases L with
  | COO => rfl
  | CSR =>
      obtain ⟨hlen, hsort, hb⟩ := h
      obtain ⟨f1, f2⟩ := cooToLilAux_roundtrip n 0 rows cols hlen hsort
        (fun r hr => ⟨Nat.zero_le r, by have := hb r hr; omega⟩)
      show layoutToCOO .CSR
        (.compressed (scanPtr 0 (cooToLilAux n 0 rows cols))
          (cooToLilAux n 0 rows cols).flatten) = _
      show EdgeTensorType.coo (expandPtr (scanPtr 0 (cooToLilAux n 0 rows cols)))
        (cooToLilAux n 0 rows cols).flatten = _
      rw [expandPtr, expandPtrAux_scanPtr, f1, f2]
  | CSC =>
      obtain ⟨hlen, hsort, hb⟩ := h
      obtain ⟨f1, f2⟩ := cooToLilAux_roundtrip n 0 cols rows hlen.symm hsort
        (fun c hc => ⟨Nat.zero_le c, by have := hb c hc; omega⟩)
      show layoutToCOO .CSC
        (.compressed (scanPtr 0 (cooToLilAux n 0 cols rows))
          (cooToLilAux n 0 cols rows).flatten) = _
      show EdgeTensorType.coo (cooToLilAux n 0 cols rows).flatten
        (expandPtr (scanPtr 0 (cooToLilAux n 0 cols rows))) = _
      rw [expandPtr, expandPtrAux_scanPtr, f1, f2]
  | LIL =>
      obtain ⟨hlen, hsort, hb⟩ := h
      obtain ⟨f1, f2⟩ := cooToLilAux_roundtrip n 0 rows cols hlen hsort
        (fun r hr => ⟨Nat.zero_le r, by have := hb r hr; omega⟩)
      show layoutToCOO .LIL (.lil (cooToLilAux n 0 rows cols)) = _
      show EdgeTensorType.coo (rowsOfLil 0 (cooToLilAux n 0 rows cols))
        (cooToLilAux n 0 rows cols).flatten = _
      rw [f1, f2]

theorem get_after_put (g : MaterializedGraph) (ei : EdgeTensorType)
    (args : AttrArgs) (L : EdgeLayout)
    (h : (EdgeAttr.cast args).layout = some L) :
    get_edge_index (put_edge_index g ei args).2 args =
      some (layoutToCOO L ei) := by
  rw [put_edge_index_some g ei args L h]
  simp [get_edge_index, _get_edge_index, lookupStore_cons, h]

theorem lookup_none_after_put (g : MaterializedGraph) (ei : EdgeTensorType)
    (args : AttrArgs) (k : EdgeAttr) (hne : EdgeAttr.cast args ≠ k)
    (h : lookupStore g.store k = none) :
    lookupStore ((put_edge_index g ei args).2).store k = none := by
  cases hL : (EdgeAttr.cast args).layout with
  | none =>
      simp only [put_edge_index, hL]
      exact h
  | some L =>
      rw [put_edge_index_some g ei args L hL]
      show lookupStore ((EdgeAttr.cast args, ei) ::
        g.store.filter (fun p => p.1 ≠ EdgeAttr.cast args)) k = none
      rw [lookupStore_cons, if_neg hne]
      exact lookupStore_filter_none _ _ _ h

theorem runPuts_lookup_none (args : AttrArgs) :
    ∀ (ops : List (EdgeTensorType × AttrArgs)) (g : MaterializedGraph),
    (∀ op ∈ ops, EdgeAttr.cast op.2 ≠ EdgeAttr.cast args) →
    lookupStore g.store (EdgeAttr.cast args) = none →
    lookupStore (runPuts g ops).store (EdgeAttr.cast args) = none := by
  intro ops
  induction ops with
  | nil => intro g _ hg; exact hg
  | cons op rest ih =>
      intro g hops hg
      obtain ⟨ei, a⟩ := op
      show lookupStore (runPuts (put_edge_index g ei a).2 rest).store _ = none
      exact ih (put_edge_index g ei a).2
        (fun o ho => hops o (List.mem_cons_of_mem _ ho))
        (lookup_none_after_put g ei a _
          (hops (ei, a) (List.mem_cons_self _ _)) hg)

/-- C1: for every edge_index and every attribute bundle whose cast key
has a layout, storing with `put_edge_index` and then reading back with
`get_edge_index` under the same bundle returns the stored edge_index
normalized to COO, i.e. a value equivalent to the original under
layout-normalization to COO. -/
theorem C1_put_get_roundtrip (g : MaterializedGraph) (ei : EdgeTensorType)
    (args : AttrArgs) (L : EdgeLayout)
    (h : (EdgeAttr.cast args).layout = some L) :
    get_edge_index (put_edge_index g ei args).2 args =
      some (layoutToCOO L ei) :=
  get_after_put g ei args L h

/-- C1 witness: storing a CSR representation and reading it back yields
its COO normalization. -/
theorem C1_put_get_roundtrip_witness :
    get_edge_index (put_edge_index emptyGraph (.compressed [0, 1, 2] [1, 2])
        (.fields (some .CSR) none)).2 (.fields (some .CSR) none) =
      some (.coo [0, 1] [1, 2]) :=
  C1_put_get_roundtrip emptyGraph (.compressed [0, 1, 2] [1, 2])
    (.fields (some .CSR) none) .CSR rfl

/-- C2: for every edge_index and every attribute bundle whose cast key
has no layout (any edge_type, including none), `put_edge_index` fails
with the missing-layout error and leaves the store unchanged. -/
theorem C2_put_missing_layout (g : MaterializedGraph) (ei : EdgeTensorType)
    (args : AttrArgs) (h : (EdgeAttr.cast args).layout = none) :
    put_edge_index g ei args =
      (.error (.missingLayout missingLayoutMsg), g) := by
  simp only [put_edge_index, h]

/-- C2 witness: a put with an edge_type but no layout fails with the
missing-layout error on the empty graph, which is returned unchanged. -/
theorem C2_put_missing_layout_witness :
    put_edge_index emptyGraph (.coo [0] [1]) (.fields none (some "e")) =
      (.error (.missingLayout missingLayoutMsg), emptyGraph) :=
  C2_put_missing_layout emptyGraph (.coo [0] [1]) (.fields none (some "e")) rfl

/-- C3: for every stored entry, `get_edge_index` returns the stored
value converted from its physical layout to COO; the call is
deterministic (two calls on the same state agree), and the conversion is
lossless: for every layout the round trip through that layout reproduces
a well-formed COO edge list exactly. -/
theorem C3_get_normalizes :
    (∀ (g : MaterializedGraph) (args : AttrArgs) (L : EdgeLayout)
        (v : EdgeTensorType),
      (EdgeAttr.cast args).layout = some L →
      lookupStore g.store (EdgeAttr.cast args) = some v →
      get_edge_index g args = some (layoutToCOO L v) ∧
      get_edge_index g args = get_edge_index g args) ∧
    (∀ (L : EdgeLayout) (n : Nat) (rows cols : List Nat),
      wfFor L n rows cols →
      layoutToCOO L (cooToLayout L n (.coo rows cols)) = .coo rows cols) := by
  constructor
  · intro g args L v hL hlook
    refine ⟨?_, rfl⟩
    simp only [get_edge_index, _get_edge_index, hlook, hL]
  · exact fun L n rows cols h => layout_roundtrip L n rows cols h

/-- C3 witness: a stored CSR entry is returned in COO form, and the
spec's example round trip COO → CSR → COO is the identity. -/
theorem C3_get_normalizes_witness :
    get_edge_index ⟨[(⟨some .CSR, none⟩, .compressed [0, 1, 2] [1, 2])]⟩
        (.fields (some .CSR) none) = some (.coo [0, 1] [1, 2]) ∧
    layoutToCOO .CSR (cooToLayout .CSR 2 (.coo [0, 1] [1, 2])) =
      .coo [0, 1] [1, 2] := by
  constructor
  · exact (C3_get_normalizes.1 ⟨[(⟨some .CSR, none⟩, .compressed [0, 1, 2] [1, 2])]⟩
      (.fields (some .CSR) none) .CSR (.compressed [0, 1, 2] [1, 2]) rfl
      (by decide)).1
  · exact C3_get_normalizes.2 .CSR 2 [0, 1] [1, 2]
      ⟨rfl, by decide, by decide⟩

/-- C4: for every attribute bundle whose cast key has a layout and every
two edge_index values, putting both under the identical key and then
reading returns only the second value (normalized to COO), and the
resulting store retains no other value under that key. -/
theorem C4_put_overwrites (g : MaterializedGraph) (ei1 ei2 : EdgeTensorType)
    (args : AttrArgs) (L : EdgeLayout)
    (h : (EdgeAttr.cast args).layout = some L) :
    get_edge_index
        (put_edge_index (put_edge_index g ei1 args).2 ei2 args).2 args =
      some (layoutToCOO L ei2) ∧
    ∀ v, (EdgeAttr.cast args, v) ∈
        ((put_edge_index (put_edge_index g ei1 args).2 ei2 args).2).store →
      v = ei2 := by
  constructor
  · exact get_after_put _ ei2 args L h
  · intro v hv
    rw [put_edge_index_some _ ei2 args L h] at hv
    rcases List.mem_cons.mp hv with he | hf
    · exact congrArg Prod.snd he
    · have := (List.mem_filter.mp hf).2
      simp at this

/-- C4 witness: after two puts under the same COO key, the get returns
the second value. -/
theorem C4_put_overwrites_witness :
    get_edge_index (put_edge_index (put_edge_index emptyGraph (.coo [0] [1])
        (.fields (some .COO) none)).2 (.coo [2] [3])
        (.fields (some .COO) none)).2 (.fields (some .COO) none) =
      some (.coo [2] [3]) :=
  (C4_put_overwrites emptyGraph (.coo [0] [1]) (.coo [2] [3])
    (.fields (some .COO) none) .COO rfl).1

/-- C5: starting from the empty graph, after any sequence of puts none
of which uses the queried key, `get_edge_index` returns `none`; its
`Option` result type carries no error, so the miss never raises. -/
theorem C5_get_missing (ops : List (EdgeTensorType × AttrArgs))
    (args : AttrArgs)
    (h : ∀ op ∈ ops, EdgeAttr.cast op.2 ≠ EdgeAttr.cast args) :
    get_edge_index (runPuts emptyGraph ops) args = none := by
  have hl := runPuts_lookup_none args ops emptyGraph h rfl
  rw [get_edge_index_lookup, hl]

/-- C5 witness: after storing under a COO key, a get under a CSR key
that was never inserted returns `none`. -/
theorem C5_get_missing_witness :
    get_edge_index
      (runPuts emptyGraph [(.coo [0] [1], .fields (some .COO) none)])
      (.fields (some .CSR) none) = none :=
  C5_get_missing [(.coo [0] [1], .fields (some .COO) none)]
    (.fields (some .CSR) none) (by decide)

/-- C6: for every store state and argument, deletion, iteration and the
length query each fail with the `NotImplementedError`-class failure;
none of them returns a success value or a successor store. -/
theorem C6_unimplemented (g : MaterializedGraph) (key : AttrArgs) :
    delitem g key = .error .notImplemented ∧
    iterItems g = .error .notImplemented ∧
    lenItems g = .error .notImplemented :=
  ⟨rfl, rfl, rfl⟩

/-- A concrete external sampler with a fixed nonempty output, used to
exhibit the empty-input exception to C7. -/
def cexSampler : List (EdgeAttr × EdgeTensorType) → List Nat → List Nat :=
  fun _ _ => [7]

/-- C7 counterexample: with the empty input-node sequence, `sample`
returns the empty result rather than the external sampler's output, so
the claim fails for that input. -/
theorem C7_counterexample :
    ¬ (sample emptyGraph cexSampler []).output =
        cexSampler (normalizeForSampling emptyGraph) [] := by
  decide

/-- C7 (amended): for every nonempty input_nodes sequence, `sample`
returns the external sampler's output unchanged, applied to the
layout-normalized store; the store performs no sampling of its own. -/
theorem C7_sample_delegates (g : MaterializedGraph)
    (sampler : List (EdgeAttr × EdgeTensorType) → List Nat → List Nat)
    (input_nodes : List Nat) (h : input_nodes ≠ []) :
    (sample g sampler input_nodes).output =
      sampler (normalizeForSampling g) input_nodes := by
  have he : input_nodes.isEmpty = false := by
    cases input_nodes with
    | nil => exact absurd rfl h
    | cons a l => rfl
  simp [sample, he]

/-- C7 witness: on a singleton input sequence, `sample` returns exactly
the external sampler's output. -/
theorem C7_sample_delegates_witness :
    (sample emptyGraph cexSampler [5]).output =
      cexSampler (normalizeForSampling emptyGraph) [5] :=
  C7_sample_delegates emptyGraph cexSampler [5] (List.cons_ne_nil 5 [])

/-- C8: for every store state and every external sampler, `sample` on
the empty input-node sequence returns the empty result and performs zero
invocations of the external sampling routine. -/
theorem C8_sample_empty (g : MaterializedGraph)
    (sampler : List (EdgeAttr × EdgeTensorType) → List Nat → List Nat) :
    sample g sampler [] = ⟨[], 0⟩ :=
  rfl

/-- C9: key-casting constructs the full `EdgeAttr` determined by the
specified fields, with unspecified fields filled by `none`, and is
deterministic: two bundles specifying the same fields cast to equal
keys.  Totality and purity are structural: `cast` is a total function
from bundles to keys that takes no store argument. -/
theorem C9_cast_deterministic (args args' : AttrArgs)
    (h1 : argsLayout args = argsLayout args')
    (h2 : argsEdgeType args = argsEdgeType args') :
    EdgeAttr.cast args =
      { layout := argsLayout args, edge_type := argsEdgeType args } ∧
    EdgeAttr.cast args = EdgeAttr.cast args' := by
  have e : ∀ b : AttrArgs,
      EdgeAttr.cast b = { layout := argsLayout b, edge_type := argsEdgeType b } := by
    intro b
    cases b with
    | attr a => cases a; rfl
    | fields l t => rfl
  exact ⟨e args, by rw [e args, e args', h1, h2]⟩

/-- C9 witness: the fully-unspecified bundle casts to the all-`none`
key, and casting it agrees with casting that key passed through. -/
theorem C9_cast_deterministic_witness :
    EdgeAttr.cast (.fields none none) =
      { layout := none, edge_type := none } ∧
    EdgeAttr.cast (.fields none none) = EdgeAttr.cast (.attr ⟨none, none⟩) :=
  C9_cast_deterministic (.fields none none) (.attr ⟨none, none⟩) rfl rfl

/-- C10: mapping-style assignment equals `put_edge_index` on the cast
key and mapping-style access equals `get_edge_index` on the cast key;
assignment without a layout fails with the same missing-layout error as
put, and access of an absent key returns `none` rather than an error. -/
theorem C10_mapping_equiv (g : MaterializedGraph) (key : AttrArgs)
    (value : EdgeTensorType) :
    setitem g key value = put_edge_index g value (.attr (EdgeAttr.cast key)) ∧
    getitem g key = get_edge_index g (.attr (EdgeAttr.cast key)) ∧
    ((EdgeAttr.cast key).layout = none →
      setitem g key value = (.error (.missingLayout missingLayoutMsg), g)) ∧
    (lookupStore g.store (EdgeAttr.cast key) = none → getitem g key = none) := by
  refine ⟨rfl, rfl, ?_, ?_⟩
  · intro h
    have hc : (EdgeAttr.cast (.attr (EdgeAttr.cast key))).layout = none := h
    show put_edge_index g value (.attr (EdgeAttr.cast key)) = _
    simp only [put_edge_index, hc]
  · intro h
    have hc : lookupStore g.store
        (EdgeAttr.cast (.attr (EdgeAttr.cast key))) = none := h
    show get_edge_index g (.attr (EdgeAttr.cast key)) = none
    simp only [get_edge_index, _get_edge_index, hc]

/-- C10 witness: on the empty graph, assignment under the layout-free
key fails with the missing-layout error, and access returns `none`. -/
theorem C10_mapping_equiv_witness :
    setitem emptyGraph (.fields none none) (.coo [0] [1]) =
      (.error (.missingLayout missingLayoutMsg), emptyGraph) ∧
    getitem emptyGraph (.fields none none) = none :=
  ⟨(C10_mapping_equiv emptyGraph (.fields none none) (.coo [0] [1])).2.2.1 rfl,
   (C10_mapping_equiv emptyGraph (.fields none none) (.coo [0] [1])).2.2.2 rfl⟩

end MaterializedGraphSpec
